import Mathlib

/-!
Verification of the staging-to-history consolidation protocol of the
`airflow-etl-training-sa-ta-th` repository (shallow embedding of the Python
scripts under `scripts/`).

The embedding models:
* the Versioned Upsert policy (`merge_to_th` in
  `training_merge_countries_to_th.py`, executed per record by
  `psycopg2.extras.execute_batch`, and the set-oriented `merge_sql` of
  `etl_get_all_countries` in `training_get_all_countries.py`);
* the Append-Only Dedup policy (the LOAD TH phase of `etl_get_weather_data`
  in `training_get_weather.py` and `load_to_th` in
  `training_get_air_quality_aqicn.py`);
* the Staging Loader (`load_to_sa`, TRUNCATE + INSERT in one transaction);
* the Multi-Source Joiner (`read_combined_sa`, a three-way INNER JOIN
  ordered by `code_iso3`);
* the Run Reporter shape of the top-level `etl_*` entry points;
* the in-place JSONB serialization loop of `merge_to_th` (lines 230-241).

Timestamps are modelled as naturals (`NOW()` is a parameter `now` of each
consolidation pass), database values as an abstract type `V`, and the
`code_iso3` natural key as a `String`.  Rows of the historical table carry
the audit columns `version`, `first_loaded_at`, `last_updated_at` exactly as
the table does; the remaining business columns are bundled into `val`.
-/

namespace ETL

/-- One staging record presented to the Versioned Upsert: its natural key
(`code_iso3`) and the bundle of non-key business columns. -/
structure Rec (V : Type) where
  key : String
  val : V
deriving DecidableEq, Repr

/-- One row of the versioned historical table `th_training_countries`:
business columns plus the audit columns `version`, `first_loaded_at`,
`last_updated_at`.  The table has a UNIQUE constraint on the key. -/
structure Row (V : Type) where
  key : String
  val : V
  version : Nat
  first_loaded_at : Nat
  last_updated_at : Nat
deriving DecidableEq, Repr

variable {V : Type}

/-- Keys of a historical store, in row order. -/
def keysOf (store : List (Row V)) : List String :=
  store.map Row.key

/-- Lookup of the (unique) row holding a natural key, as
`SELECT ... WHERE code_iso3 = k`. -/
def getRow (store : List (Row V)) (k : String) : Option (Row V) :=
  store.find? (fun row => row.key == k)

/-- Distinct-key count of the historical store. -/
def distinctKeyCount (store : List (Row V)) : Nat :=
  (keysOf store).dedup.length

/-- Embeds one execution of `merge_sql` for a single parameter record
(`training_merge_countries_to_th.py`, lines 174-221): `INSERT ... VALUES
(..., NOW(), NOW(), 1) ON CONFLICT (code_iso3) DO UPDATE SET ...,
last_updated_at = NOW(), version = th.version + 1`.  The conflict target is
the UNIQUE key, so at most one stored row conflicts; an absent key appends a
fresh row with `version = 1` and both audit timestamps set to `now`. -/
def upsert_row (now : Nat) : List (Row V) → Rec V → List (Row V)
  | [], r => [⟨r.key, r.val, 1, now, now⟩]
  | row :: rest, r =>
    if row.key == r.key then
      { row with val := r.val, version := row.version + 1, last_updated_at := now } :: rest
    else
      row :: upsert_row now rest r

/-- Embeds `merge_to_th` (`training_merge_countries_to_th.py`, lines
151-286): `execute_batch` runs `merge_sql` once per record of `countries`,
in order, inside one transaction; afterwards the function reports
`inserted = max(0, count_after - count_before)` and
`updated = len(countries) - inserted` (lines 243-252).
Returns the new store and the pair `(inserted, updated)`. -/
def merge_to_th (now : Nat) (store : List (Row V)) (countries : List (Rec V)) :
    List (Row V) × Int × Int :=
  let store2 := countries.foldl (upsert_row now) store
  let inserted : Int := max 0 ((store2.length : Int) - (store.length : Int))
  let updated : Int := (countries.length : Int) - inserted
  (store2, inserted, updated)

/-- Embeds the `RETURNING CASE WHEN version = 1 THEN 'INSERT' ELSE 'UPDATE'`
classification of `merge_sql` in `etl_get_all_countries`
(`training_get_all_countries.py`, line 211): the affected row's `version` is
`1` on the insert path and `old version + 1` on the update path.  `true`
means the record is counted as an INSERT. -/
def row_counted_as_insert (store : List (Row V)) (r : Rec V) : Bool :=
  match getRow store r.key with
  | some row => row.version + 1 == 1
  | none => true

/-- Embeds the set-oriented `merge_sql` of `etl_get_all_countries`
(`training_get_all_countries.py`, lines 161-222): a single
`INSERT ... SELECT ... FROM sa ... ON CONFLICT (code_iso3) DO UPDATE`
statement.  PostgreSQL rejects such a statement when the source rows contain
the same key twice ("ON CONFLICT DO UPDATE command cannot affect row a
second time"), which the embedding returns as `none`; otherwise the whole
batch is applied against the start-of-statement store, and the counts
`(inserts, updates)` are taken from the RETURNING classification. -/
def merge_sql_set (now : Nat) (store : List (Row V)) (batch : List (Rec V)) :
    Option (List (Row V) × Nat × Nat) :=
  if (batch.map Rec.key).Nodup then
    let inserted := (batch.filter (fun r => row_counted_as_insert store r)).length
    let updated := (batch.filter (fun r => ! row_counted_as_insert store r)).length
    some (batch.foldl (upsert_row now) store, inserted, updated)
  else
    none

/-! ### Append-Only Dedup policy -/

/-- One time-series measurement: the composite key columns
(`measured_at`, and `city` for the weather table / `station_id` for the
air-quality table) plus the bundle of remaining business columns.  The
historical tables have a UNIQUE constraint on the pair. -/
structure Meas (V : Type) where
  measured_at : Nat
  station : String
  val : V
deriving DecidableEq, Repr

/-- Embeds a set-oriented `INSERT ... SELECT ... FROM sa ... ON CONFLICT
(measured_at, station) DO NOTHING` (`training_get_weather.py` lines 173-187,
`training_get_air_quality_aqicn.py` lines 312-334): source rows are
processed in order; a row whose composite key is already present — in the
store or inserted earlier in the same statement — is skipped, and an
existing row is never modified. -/
def insertAppendOnly (store : List (Meas V)) (sa : List (Meas V)) : List (Meas V) :=
  sa.foldl
    (fun acc m =>
      if acc.any (fun x => x.measured_at == m.measured_at && x.station == m.station) then
        acc
      else
        acc ++ [m])
    store

/-- Composite-key membership used by the append-only conflict check. -/
def hasCKey (store : List (Meas V)) (m : Meas V) : Bool :=
  store.any (fun x => x.measured_at == m.measured_at && x.station == m.station)

/-- Embeds the LOAD TH phase of `etl_get_weather_data`
(`training_get_weather.py`, lines 173-196): after the append-only insert it
reports `th_inserted = cur.rowcount` (the rows actually inserted),
`th_duplicates = len(measurements) - th_inserted`, and `th_total = SELECT
COUNT(*)`.  Returns the new store and `(inserted, duplicates, total)`. -/
def weather_load_th (store : List (Meas V)) (measurements : List (Meas V)) :
    List (Meas V) × Nat × Int × Nat :=
  let store2 := insertAppendOnly store measurements
  let inserted := store2.length - store.length
  let duplicates : Int := (measurements.length : Int) - (inserted : Int)
  (store2, inserted, duplicates, store2.length)

/-- Embeds `load_to_th` of `training_get_air_quality_aqicn.py` (lines
284-368): the same append-only insert, but the reported duplicate count is
computed as `len([]) if rows_inserted == 0 else (count_after - count_before
- rows_inserted)` (line 343) and returned as `max(0, duplicates)` (line
366).  Returns the new store and `(inserted, duplicates, total)`. -/
def load_to_th (store : List (Meas V)) (sa : List (Meas V)) :
    List (Meas V) × Nat × Int × Nat :=
  let count_before := store.length
  let store2 := insertAppendOnly store sa
  let rows_inserted := store2.length - count_before
  let count_after := store2.length
  let duplicates : Int :=
    if rows_inserted == 0 then 0
    else (count_after : Int) - (count_before : Int) - (rows_inserted : Int)
  (store2, rows_inserted, max 0 duplicates, count_after)

/-! ### Staging Loader -/

/-- One record presented to a Staging Loader.  `conforms` abstracts "this
record conforms to the area's expected shape": a non-conforming record makes
the corresponding `INSERT` raise, which aborts the transaction. -/
structure SRec (V : Type) where
  val : V
  conforms : Bool
deriving DecidableEq, Repr

/-- The insert loop of `load_to_sa` after the TRUNCATE: records are inserted
one by one (`execute_batch`) into the emptied area; the first
non-conforming record raises, modelled by `none`. -/
def insertLoop : List (SRec V) → List (SRec V) → Option (List (SRec V))
  | acc, [] => some acc
  | acc, r :: rs => if r.conforms then insertLoop (acc ++ [r]) rs else none

/-- Embeds `load_to_sa` (`training_get_countries_basic.py` lines 152-212 and
`training_get_air_quality_aqicn.py` lines 215-277): inside one transaction,
`TRUNCATE` the staging area, insert the batch, `COMMIT`, and return `SELECT
COUNT(*)`; on any failure the transaction is rolled back, leaving the prior
contents in place and reporting no count. -/
def load_to_sa (prior : List (SRec V)) (batch : List (SRec V)) :
    List (SRec V) × Option Nat :=
  match insertLoop [] batch with
  | some final => (final, some final.length)
  | none => (prior, none)

/-! ### Multi-Source Joiner -/

/-- Embeds `read_combined_sa` (`training_merge_countries_to_th.py`, lines
52-144): `SELECT ... FROM sa_training_countries_basic b INNER JOIN
sa_training_countries_geo g ON b.code_iso3 = g.code_iso3 INNER JOIN
sa_training_countries_culture c ON b.code_iso3 = c.code_iso3 ORDER BY
b.code_iso3`.  Each staging area is a list of `(code_iso3, payload)` rows;
the output rows carry the key and the three payloads, sorted ascending by
the key. -/
def read_combined_sa {B G C : Type}
    (bs : List (String × B)) (gs : List (String × G)) (cs : List (String × C)) :
    List (String × B × G × C) :=
  (bs.flatMap (fun b =>
    ((gs.filter (fun g => g.1 == b.1)).flatMap (fun g =>
      (cs.filter (fun c => c.1 == b.1)).map (fun c =>
        (b.1, b.2, g.2, c.2)))))).mergeSort
    (fun x y => decide (x.1 ≤ y.1))

/-! ### Run Reporter -/

/-- Number of records of an upsert batch that carry the natural key `k`:
`execute_batch` runs `merge_sql` once for each of them. -/
def occurrencesInPass (batch : List (Rec V)) (k : String) : Nat :=
  (batch.filter (fun r => r.key == k)).length

/-! ### JSONB serialization loop of `merge_to_th` (lines 230-241) -/

/-- Python values as psycopg2 hands them to `merge_to_th`: `None`, strings,
integers, booleans, JSON arrays (Python lists) and JSON objects (Python
dicts, insertion-ordered). -/
inductive PyVal where
  | pnone
  | pstr (s : String)
  | pint (n : Int)
  | pbool (b : Bool)
  | parr (elems : List PyVal)
  | pobj (fields : List (String × PyVal))
deriving Repr

/-- Escaping of one character inside a JSON string, as `json.dumps` does
for the quote and the backslash. -/
def jsonEscapeChar (c : Char) : String :=
  if c = '"' then "\\\"" else if c = '\\' then "\\\\" else String.singleton c

/-- Escaping of a JSON string body. -/
def jsonEscape (s : String) : String :=
  String.join (s.toList.map jsonEscapeChar)

mutual

/-- JSON serialization of a Python value, as `json.dumps` with its default
separators `", "` and `": "`. -/
def jsonDumps : PyVal → String
  | .pnone => "null"
  | .pstr s => "\"" ++ jsonEscape s ++ "\""
  | .pint n => toString n
  | .pbool b => if b then "true" else "false"
  | .parr elems => "[" ++ jsonDumpsArr elems ++ "]"
  | .pobj fields => "\x7b" ++ jsonDumpsObj fields ++ "\x7d"

/-- Comma-separated serialization of a JSON array body. -/
def jsonDumpsArr : List PyVal → String
  | [] => ""
  | [x] => jsonDumps x
  | x :: xs => jsonDumps x ++ ", " ++ jsonDumpsArr xs

/-- Comma-separated serialization of a JSON object body. -/
def jsonDumpsObj : List (String × PyVal) → String
  | [] => ""
  | [kv] => "\"" ++ jsonEscape kv.1 ++ "\": " ++ jsonDumps kv.2
  | kv :: xs => "\"" ++ jsonEscape kv.1 ++ "\": " ++ jsonDumps kv.2 ++ ", " ++ jsonDumpsObj xs

end

/-- A country record as `merge_to_th` receives it: a Python dict mapping
column names to values, with unique keys in insertion order. -/
abbrev PyDict := List (String × PyVal)

/-- Python `country.get(field)`: the stored value, or `None` when the key
is absent. -/
def dictGet (d : PyDict) (field : String) : PyVal :=
  (((d.find? (fun kv => kv.1 == field))).map Prod.snd).getD .pnone

/-- Python `country[field] = v`: replace the value in place if the key
exists (keys are unique in a dict), append the pair otherwise. -/
def dictSet : PyDict → String → PyVal → PyDict
  | [], field, v => [(field, v)]
  | kv :: rest, field, v =>
    if kv.1 == field then (kv.1, v) :: rest else kv :: dictSet rest field v

/-- The JSONB columns rewritten by `merge_to_th`
(`training_merge_countries_to_th.py`, line 232). -/
def jsonb_fields : List String :=
  ["languages", "currencies", "timezones", "borders"]

/-- One iteration of the inner loop of `merge_to_th` (lines 234-241):
`value = country.get(field)`; a non-`None` non-`str` value is replaced by
`json.dumps(value)`, a `None` value is (re)assigned `None`, and a string is
left untouched. -/
def serializeJsonbField (country : PyDict) (field : String) : PyDict :=
  match dictGet country field with
  | .pstr _ => country
  | .pnone => dictSet country field .pnone
  | v => dictSet country field (.pstr (jsonDumps v))

/-- The effect of the outer loop of `merge_to_th` (lines 233-241) on one
country dict of the caller's batch. -/
def serializeCountry (country : PyDict) : PyDict :=
  jsonb_fields.foldl serializeJsonbField country

/-- The caller-visible state of the `countries` list after `merge_to_th`
returns: the loop of lines 233-241 mutates every dict of the batch in
place, so the caller's own records are the serialized ones. -/
def merge_to_th_batch_after (countries : List PyDict) : List PyDict :=
  countries.map (fun country => jsonb_fields.foldl serializeJsonbField country)

/-- The value a JSONB field holds after the rewrite of lines 234-241. -/
def serializedJsonbValue : PyVal → PyVal
  | .pstr s => .pstr s
  | .pnone => .pnone
  | v => .pstr (jsonDumps v)


/-! ### Lemmas about the versioned upsert -/

theorem getRow_nil (k : String) : getRow ([] : List (Row V)) k = none := rfl

theorem getRow_cons (row : Row V) (rest : List (Row V)) (k : String) :
    getRow (row :: rest) k = if (row.key == k) = true then some row else getRow rest k := by
  cases h : row.key == k <;> simp [getRow, List.find?_cons, h]

theorem keysOf_nil : keysOf ([] : List (Row V)) = [] := rfl

theorem keysOf_cons (row : Row V) (rest : List (Row V)) :
    keysOf (row :: rest) = row.key :: keysOf rest := rfl

theorem getRow_upsert_row_self (now : Nat) (s : List (Row V)) (r : Rec V) :
    getRow (upsert_row now s r) r.key =
      some (match getRow s r.key with
            | some row =>
              { row with val := r.val, version := row.version + 1, last_updated_at := now }
            | none => ⟨r.key, r.val, 1, now, now⟩) := by
  induction s with
  | nil => simp [getRow_nil, upsert_row, getRow_cons]
  | cons row rest ih =>
    by_cases h : row.key = r.key
    · have hcons : getRow (row :: rest) r.key = some row := by
        rw [getRow_cons]; exact if_pos (by simp [h])
      simp only [upsert_row, if_pos (show (row.key == r.key) = true by simp [h]), hcons]
      rw [getRow_cons, if_pos (by simp [h])]
    · have hcons : getRow (row :: rest) r.key = getRow rest r.key := by
        rw [getRow_cons]; exact if_neg (by simp [h])
      simp only [upsert_row, if_neg (show ¬ ((row.key == r.key) = true) by simp [h]), hcons]
      rw [getRow_cons, if_neg (by simp [h])]
      exact ih

theorem getRow_upsert_row_other (now : Nat) (s : List (Row V)) (r : Rec V) (k : String)
    (hk : k ≠ r.key) : getRow (upsert_row now s r) k = getRow s k := by
  induction s with
  | nil =>
    simp only [upsert_row, getRow_nil, getRow_cons]
    rw [if_neg (by simp; exact fun h => hk h.symm)]
  | cons row rest ih =>
    by_cases h : row.key = r.key
    · simp only [upsert_row, if_pos (show (row.key == r.key) = true by simp [h])]
      rw [getRow_cons, getRow_cons]
      have hne : ¬ ((row.key == k) = true) := by
        simp [h]; exact fun hc => hk hc.symm
      rw [if_neg hne, if_neg (by simpa using hne)]
    · simp only [upsert_row, if_neg (show ¬ ((row.key == r.key) = true) by simp [h])]
      rw [getRow_cons, getRow_cons]
      by_cases h2 : row.key = k
      · rw [if_pos (by simp [h2]), if_pos (by simp [h2])]
      · rw [if_neg (by simp [h2]), if_neg (by simp [h2])]
        exact ih

theorem length_upsert_row (now : Nat) (s : List (Row V)) (r : Rec V) :
    (upsert_row now s r).length =
      if (getRow s r.key).isSome then s.length else s.length + 1 := by
  induction s with
  | nil => simp [getRow_nil, upsert_row]
  | cons row rest ih =>
    by_cases h : row.key = r.key
    · have hcons : getRow (row :: rest) r.key = some row := by
        rw [getRow_cons]; exact if_pos (by simp [h])
      simp only [upsert_row, if_pos (show (row.key == r.key) = true by simp [h]), hcons]
      simp
    · have hcons : getRow (row :: rest) r.key = getRow rest r.key := by
        rw [getRow_cons]; exact if_neg (by simp [h])
      simp only [upsert_row, if_neg (show ¬ ((row.key == r.key) = true) by simp [h]),
        List.length_cons, ih, hcons]
      by_cases hp : (getRow rest r.key).isSome <;> simp [hp]

theorem keysOf_upsert_row (now : Nat) (s : List (Row V)) (r : Rec V) :
    keysOf (upsert_row now s r) =
      if (getRow s r.key).isSome then keysOf s else keysOf s ++ [r.key] := by
  induction s with
  | nil => simp [getRow_nil, upsert_row, keysOf]
  | cons row rest ih =>
    by_cases h : row.key = r.key
    · have hcons : getRow (row :: rest) r.key = some row := by
        rw [getRow_cons]; exact if_pos (by simp [h])
      simp only [upsert_row, if_pos (show (row.key == r.key) = true by simp [h]), hcons]
      simp [keysOf_cons]
    · have hcons : getRow (row :: rest) r.key = getRow rest r.key := by
        rw [getRow_cons]; exact if_neg (by simp [h])
      simp only [upsert_row, if_neg (show ¬ ((row.key == r.key) = true) by simp [h]),
        keysOf_cons, ih, hcons]
      by_cases hp : (getRow rest r.key).isSome <;> simp [hp]

theorem getRow_isSome_iff_mem_keysOf (s : List (Row V)) (k : String) :
    (getRow s k).isSome ↔ k ∈ keysOf s := by
  induction s with
  | nil => simp [getRow_nil, keysOf_nil]
  | cons row rest ih =>
    rw [getRow_cons, keysOf_cons]
    by_cases h : row.key = k
    · simp [h]
    · rw [if_neg (by simp [h])]
      simp [ih, Ne.symm h]

theorem keysOf_upsert_row_nodup (now : Nat) (s : List (Row V)) (r : Rec V)
    (h : (keysOf s).Nodup) : (keysOf (upsert_row now s r)).Nodup := by
  rw [keysOf_upsert_row]
  by_cases hp : (getRow s r.key).isSome
  · simpa [hp] using h
  · rw [if_neg hp]
    have hnm : r.key ∉ keysOf s := by
      intro hmem
      exact hp ((getRow_isSome_iff_mem_keysOf s r.key).mpr hmem)
    simpa [List.nodup_append] using ⟨h, hnm⟩

theorem keysOf_foldl_nodup (now : Nat) (b : List (Rec V)) (s : List (Row V))
    (h : (keysOf s).Nodup) : (keysOf (b.foldl (upsert_row now) s)).Nodup := by
  induction b generalizing s with
  | nil => simpa using h
  | cons r rs ih => exact ih _ (keysOf_upsert_row_nodup now s r h)

theorem length_le_length_foldl (now : Nat) (b : List (Rec V)) (s : List (Row V)) :
    s.length ≤ (b.foldl (upsert_row now) s).length := by
  induction b generalizing s with
  | nil => simp
  | cons r rs ih =>
    refine le_trans ?_ (ih (upsert_row now s r))
    rw [length_upsert_row]
    by_cases hp : (getRow s r.key).isSome <;> simp [hp]

theorem length_foldl_le (now : Nat) (b : List (Rec V)) (s : List (Row V)) :
    (b.foldl (upsert_row now) s).length ≤ s.length + b.length := by
  induction b generalizing s with
  | nil => simp
  | cons r rs ih =>
    refine le_trans (ih (upsert_row now s r)) ?_
    rw [length_upsert_row]
    by_cases hp : (getRow s r.key).isSome <;> first | (simp [hp]; omega) | simp [hp]

theorem getRow_foldl_other (now : Nat) (b : List (Rec V)) (s : List (Row V)) (k : String)
    (hk : k ∉ b.map Rec.key) : getRow (b.foldl (upsert_row now) s) k = getRow s k := by
  induction b generalizing s with
  | nil => rfl
  | cons r rs ih =>
    simp only [List.map_cons, List.mem_cons] at hk
    push_neg at hk
    rw [List.foldl_cons, ih _ hk.2, getRow_upsert_row_other now s r k hk.1]

/-- The business value of the last record in `batch` carrying key `k`, if
any: the value the duplicate-key tie-break resolves to. -/
def lastVal (batch : List (Rec V)) (k : String) : Option V :=
  (batch.reverse.find? (fun r => r.key == k)).map Rec.val

theorem lastVal_nil (k : String) : lastVal ([] : List (Rec V)) k = none := rfl

theorem lastVal_cons (r : Rec V) (rs : List (Rec V)) (k : String) :
    lastVal (r :: rs) k =
      (lastVal rs k).or (if r.key = k then some r.val else none) := by
  unfold lastVal
  rw [List.reverse_cons, List.find?_append]
  by_cases h : r.key = k
  · cases hf : List.find? (fun r => r.key == k) rs.reverse <;> simp [List.find?, h, hf]
  · have hb : (r.key == k) = false := by simp [h]
    cases hf : List.find? (fun r => r.key == k) rs.reverse <;>
      simp [List.find?, h, hb, hf]

theorem getRow_upsert_row_self_val (now : Nat) (s : List (Row V)) (r : Rec V) :
    (getRow (upsert_row now s r) r.key).map Row.val = some r.val := by
  rw [getRow_upsert_row_self]
  cases hs : getRow s r.key <;> simp [hs]

theorem getRow_upsert_row_val (now : Nat) (s : List (Row V)) (r : Rec V) (k : String) :
    (getRow (upsert_row now s r) k).map Row.val =
      if r.key = k then some r.val else (getRow s k).map Row.val := by
  by_cases h : r.key = k
  · rw [if_pos h, ← h, getRow_upsert_row_self_val]
  · rw [if_neg h, getRow_upsert_row_other now s r k (fun hc => h hc.symm)]

theorem getRow_foldl_val (now : Nat) (b : List (Rec V)) (s : List (Row V)) (k : String) :
    (getRow (b.foldl (upsert_row now) s) k).map Row.val =
      (lastVal b k).or ((getRow s k).map Row.val) := by
  induction b generalizing s with
  | nil => simp [lastVal_nil]
  | cons r rs ih =>
    rw [List.foldl_cons, ih (upsert_row now s r), lastVal_cons,
      getRow_upsert_row_val now s r k, Option.or_assoc]
    by_cases h : r.key = k <;> simp [h]

theorem getRow_foldl_nodup_mem (now : Nat) (b : List (Rec V)) (s : List (Row V))
    (hnd : (b.map Rec.key).Nodup) (r : Rec V) (hr : r ∈ b) :
    getRow (b.foldl (upsert_row now) s) r.key =
      some (match getRow s r.key with
            | some row =>
              { row with val := r.val, version := row.version + 1, last_updated_at := now }
            | none => ⟨r.key, r.val, 1, now, now⟩) := by
  induction b generalizing s with
  | nil => cases hr
  | cons x xs ih =>
    simp only [List.map_cons, List.nodup_cons] at hnd
    rcases List.mem_cons.mp hr with hkx | hxs
    · subst hkx
      rw [List.foldl_cons, getRow_foldl_other now xs (upsert_row now s r) r.key hnd.1,
        getRow_upsert_row_self]
    · have hkne : r.key ≠ x.key := by
        intro hc
        exact hnd.1 (hc ▸ List.mem_map_of_mem Rec.key hxs)
      rw [List.foldl_cons, ih (upsert_row now s x) hnd.2 hxs,
        getRow_upsert_row_other now s x r.key hkne]

theorem getRow_isSome_upsert_row (now : Nat) (s : List (Row V)) (r : Rec V) (k : String)
    (h : (getRow s k).isSome) : (getRow (upsert_row now s r) k).isSome := by
  by_cases hk : k = r.key
  · subst hk
    rw [getRow_upsert_row_self]
    simp
  · rwa [getRow_upsert_row_other now s r k hk]

theorem getRow_first_upsert_row (now : Nat) (s : List (Row V)) (r : Rec V) (k : String)
    (h : (getRow s k).isSome) :
    (getRow (upsert_row now s r) k).map Row.first_loaded_at =
      (getRow s k).map Row.first_loaded_at := by
  by_cases hk : k = r.key
  · subst hk
    rw [getRow_upsert_row_self]
    cases hs : getRow s r.key with
    | none => rw [hs] at h; simp at h
    | some row => simp [hs]
  · rw [getRow_upsert_row_other now s r k hk]

theorem getRow_first_foldl (now : Nat) (b : List (Rec V)) (s : List (Row V)) (k : String)
    (h : (getRow s k).isSome) :
    (getRow (b.foldl (upsert_row now) s) k).map Row.first_loaded_at =
      (getRow s k).map Row.first_loaded_at := by
  induction b generalizing s with
  | nil => rfl
  | cons r rs ih =>
    rw [List.foldl_cons, ih (upsert_row now s r) (getRow_isSome_upsert_row now s r k h),
      getRow_first_upsert_row now s r k h]

theorem mem_keysOf_foldl (now : Nat) (b : List (Rec V)) (s : List (Row V)) (k : String) :
    k ∈ keysOf (b.foldl (upsert_row now) s) ↔ k ∈ keysOf s ∨ k ∈ b.map Rec.key := by
  induction b generalizing s with
  | nil => simp
  | cons r rs ih =>
    rw [List.foldl_cons, ih (upsert_row now s r), keysOf_upsert_row]
    by_cases hp : (getRow s r.key).isSome
    · have hmem : r.key ∈ keysOf s := (getRow_isSome_iff_mem_keysOf s r.key).mp hp
      rw [if_pos hp]
      simp only [List.map_cons, List.mem_cons]
      constructor
      · rintro (hs | hb)
        · exact Or.inl hs
        · exact Or.inr (Or.inr hb)
      · rintro (hs | rfl | hb)
        · exact Or.inl hs
        · exact Or.inl hmem
        · exact Or.inr hb
    · rw [if_neg hp]
      simp only [List.mem_append, List.mem_singleton, List.map_cons, List.mem_cons]
      tauto

theorem keysOf_foldl_of_present (now : Nat) (b : List (Rec V)) (s : List (Row V))
    (h : ∀ r ∈ b, r.key ∈ keysOf s) :
    keysOf (b.foldl (upsert_row now) s) = keysOf s := by
  induction b generalizing s with
  | nil => rfl
  | cons r rs ih =>
    have hp : (getRow s r.key).isSome :=
      (getRow_isSome_iff_mem_keysOf s r.key).mpr (h r (List.mem_cons_self r rs))
    have hk : keysOf (upsert_row now s r) = keysOf s := by
      rw [keysOf_upsert_row, if_pos hp]
    rw [List.foldl_cons, ih (upsert_row now s r)
      (fun x hx => by rw [hk]; exact h x (List.mem_cons_of_mem r hx)), hk]

theorem audit_upsert_row (now : Nat) (s : List (Row V)) (r : Rec V)
    (h : ∀ row ∈ s, row.first_loaded_at ≤ row.last_updated_at ∧ row.last_updated_at ≤ now) :
    ∀ row ∈ upsert_row now s r,
      row.first_loaded_at ≤ row.last_updated_at ∧ row.last_updated_at ≤ now := by
  induction s with
  | nil =>
    intro row hrow
    simp [upsert_row] at hrow
    simp [hrow]
  | cons row0 rest ih =>
    intro row hrow
    by_cases hk : row0.key = r.key
    · simp only [upsert_row, if_pos (show (row0.key == r.key) = true by simp [hk])] at hrow
      rcases List.mem_cons.mp hrow with hhd | htl
      · subst hhd
        have h0 := h row0 (List.mem_cons_self row0 rest)
        exact ⟨le_trans h0.1 h0.2, le_refl now⟩
      · exact h row (List.mem_cons_of_mem row0 htl)
    · simp only [upsert_row, if_neg (show ¬ ((row0.key == r.key) = true) by simp [hk])] at hrow
      rcases List.mem_cons.mp hrow with hhd | htl
      · subst hhd
        exact h row (List.mem_cons_self row rest)
      · exact ih (fun x hx => h x (List.mem_cons_of_mem row0 hx)) row htl

theorem audit_foldl (now : Nat) (b : List (Rec V)) (s : List (Row V))
    (h : ∀ row ∈ s, row.first_loaded_at ≤ row.last_updated_at ∧ row.last_updated_at ≤ now) :
    ∀ row ∈ b.foldl (upsert_row now) s,
      row.first_loaded_at ≤ row.last_updated_at ∧ row.last_updated_at ≤ now := by
  induction b generalizing s with
  | nil => exact h
  | cons r rs ih => exact ih (upsert_row now s r) (audit_upsert_row now s r h)

theorem distinctKeyCount_eq_length (s : List (Row V)) (h : (keysOf s).Nodup) :
    distinctKeyCount s = s.length := by
  rw [distinctKeyCount, List.dedup_eq_self.mpr h, keysOf, List.length_map]

theorem row_counted_as_insert_iff (store : List (Row V)) (r : Rec V)
    (hv : ∀ row ∈ store, 1 ≤ row.version) :
    row_counted_as_insert store r = !(getRow store r.key).isSome := by
  unfold row_counted_as_insert
  cases hs : getRow store r.key with
  | none => simp
  | some row =>
    have hmem : row ∈ store := List.mem_of_find?_eq_some hs
    have h1 : 1 ≤ row.version := hv row hmem
    simp [hs]
    omega

theorem length_foldl_nodup (now : Nat) (b : List (Rec V)) (s : List (Row V))
    (hnd : (b.map Rec.key).Nodup) :
    (b.foldl (upsert_row now) s).length =
      s.length + (b.filter (fun r => !(getRow s r.key).isSome)).length := by
  induction b generalizing s with
  | nil => simp
  | cons r rs ih =>
    simp only [List.map_cons, List.nodup_cons] at hnd
    have hfc : rs.filter (fun x => !(getRow (upsert_row now s r) x.key).isSome) =
        rs.filter (fun x => !(getRow s x.key).isSome) := by
      refine List.filter_congr ?_
      intro x hx
      have hne : x.key ≠ r.key := by
        intro hc
        exact hnd.1 (hc ▸ List.mem_map_of_mem Rec.key hx)
      rw [getRow_upsert_row_other now s r x.key hne]
    rw [List.foldl_cons, ih (upsert_row now s r) hnd.2, hfc, length_upsert_row]
    by_cases hp : (getRow s r.key).isSome
    · obtain ⟨row, hrow⟩ := Option.isSome_iff_exists.mp hp
      rw [if_pos hp]
      simp [List.filter_cons, hrow]
    · have hnone : getRow s r.key = none := Option.not_isSome_iff_eq_none.mp hp
      rw [if_neg hp]
      simp [List.filter_cons, hnone]
      omega

/-! ### Lemmas about the append-only insert -/

theorem insertAppendOnly_nil (store : List (Meas V)) :
    insertAppendOnly store [] = store := rfl

theorem insertAppendOnly_cons (store : List (Meas V)) (m : Meas V) (ms : List (Meas V)) :
    insertAppendOnly store (m :: ms) =
      insertAppendOnly (if hasCKey store m then store else store ++ [m]) ms := rfl

theorem insertAppendOnly_exists_tail (sa : List (Meas V)) (store : List (Meas V)) :
    ∃ tail, insertAppendOnly store sa = store ++ tail := by
  induction sa generalizing store with
  | nil => exact ⟨[], by simp [insertAppendOnly_nil]⟩
  | cons m ms ih =>
    rw [insertAppendOnly_cons]
    by_cases hp : hasCKey store m
    · rw [if_pos hp]
      exact ih store
    · rw [if_neg hp]
      obtain ⟨t, ht⟩ := ih (store ++ [m])
      exact ⟨[m] ++ t, by rw [ht, List.append_assoc]⟩

theorem length_le_insertAppendOnly (store sa : List (Meas V)) :
    store.length ≤ (insertAppendOnly store sa).length := by
  obtain ⟨t, ht⟩ := insertAppendOnly_exists_tail sa store
  rw [ht]
  simp

theorem insertAppendOnly_length_le (store sa : List (Meas V)) :
    (insertAppendOnly store sa).length ≤ store.length + sa.length := by
  induction sa generalizing store with
  | nil => simp [insertAppendOnly_nil]
  | cons m ms ih =>
    rw [insertAppendOnly_cons]
    by_cases hp : hasCKey store m
    · rw [if_pos hp]
      have := ih store
      simp only [List.length_cons]
      omega
    · rw [if_neg hp]
      have := ih (store ++ [m])
      simp only [List.length_append, List.length_cons] at this ⊢
      simp at this
      omega

theorem hasCKey_append_left (store tail : List (Meas V)) (m : Meas V)
    (h : hasCKey store m = true) : hasCKey (store ++ tail) m = true := by
  unfold hasCKey at h ⊢
  rw [List.any_append, h]
  rfl

theorem hasCKey_insertAppendOnly_mono (sa store : List (Meas V)) (m : Meas V)
    (h : hasCKey store m = true) : hasCKey (insertAppendOnly store sa) m = true := by
  obtain ⟨t, ht⟩ := insertAppendOnly_exists_tail sa store
  rw [ht]
  exact hasCKey_append_left store t m h

theorem hasCKey_insertAppendOnly_of_mem (sa : List (Meas V)) (store : List (Meas V))
    (m : Meas V) (hm : m ∈ sa) : hasCKey (insertAppendOnly store sa) m = true := by
  induction sa generalizing store with
  | nil => cases hm
  | cons x xs ih =>
    rw [insertAppendOnly_cons]
    rcases List.mem_cons.mp hm with rfl | hxs
    · by_cases hp : hasCKey store m
      · rw [if_pos hp]
        exact hasCKey_insertAppendOnly_mono xs store m hp
      · rw [if_neg hp]
        refine hasCKey_insertAppendOnly_mono xs (store ++ [m]) m ?_
        unfold hasCKey
        simp
    · by_cases hp : hasCKey store x
      · rw [if_pos hp]
        exact ih store hxs
      · rw [if_neg hp]
        exact ih (store ++ [x]) hxs

theorem insertAppendOnly_of_all_present (store sa : List (Meas V))
    (h : ∀ m ∈ sa, hasCKey store m = true) : insertAppendOnly store sa = store := by
  induction sa with
  | nil => rfl
  | cons m ms ih =>
    rw [insertAppendOnly_cons, if_pos (h m (List.mem_cons_self m ms))]
    exact ih (fun x hx => h x (List.mem_cons_of_mem m hx))

theorem insertAppendOnly_idem (store sa : List (Meas V)) :
    insertAppendOnly (insertAppendOnly store sa) sa = insertAppendOnly store sa :=
  insertAppendOnly_of_all_present _ sa
    (fun m hm => hasCKey_insertAppendOnly_of_mem sa store m hm)

/-! ### Lemmas about the JSONB serialization loop -/

theorem dictGet_dictSet_self (d : PyDict) (f : String) (v : PyVal) :
    dictGet (dictSet d f v) f = v := by
  induction d with
  | nil => simp [dictGet, dictSet, List.find?]
  | cons kv rest ih =>
    by_cases h : kv.1 = f
    · simp [dictGet, dictSet, List.find?, h]
    · have hb : (kv.1 == f) = false := by simp [h]
      simp only [dictSet, hb, Bool.false_eq_true, if_false]
      simpa [dictGet, List.find?_cons, hb] using ih

theorem dictGet_dictSet_other (d : PyDict) (f g : String) (v : PyVal) (h : g ≠ f) :
    dictGet (dictSet d g v) f = dictGet d f := by
  induction d with
  | nil =>
    have hb : (g == f) = false := by simp [h]
    simp [dictGet, dictSet, List.find?, hb]
  | cons kv rest ih =>
    by_cases hkg : kv.1 = g
    · have hb : (kv.1 == g) = true := by simp [hkg]
      have hbf : (kv.1 == f) = false := by simp [hkg, h]
      simp [dictGet, dictSet, List.find?_cons, hb, hbf]
    · have hb : (kv.1 == g) = false := by simp [hkg]
      simp only [dictSet, hb, Bool.false_eq_true, if_false]
      cases hbf : (kv.1 == f) <;>
        (try simp [dictGet, List.find?_cons, hbf]); exact ih

theorem dictGet_serializeJsonbField_self (d : PyDict) (f : String) :
    dictGet (serializeJsonbField d f) f = serializedJsonbValue (dictGet d f) := by
  unfold serializeJsonbField serializedJsonbValue
  cases hv : dictGet d f <;>
    simp [hv, dictGet_dictSet_self]

theorem dictGet_serializeJsonbField_other (d : PyDict) (f g : String) (h : g ≠ f) :
    dictGet (serializeJsonbField d g) f = dictGet d f := by
  unfold serializeJsonbField
  cases hv : dictGet d g <;>
    simp [hv, dictGet_dictSet_other d f g _ h]

/-! ### Lemmas about the staging loader -/

theorem insertLoop_of_all_conform (batch : List (SRec V)) (acc : List (SRec V))
    (h : batch.all (fun r => r.conforms) = true) :
    insertLoop acc batch = some (acc ++ batch) := by
  induction batch generalizing acc with
  | nil => simp [insertLoop]
  | cons r rs ih =>
    simp only [List.all_cons, Bool.and_eq_true] at h
    rw [insertLoop, if_pos h.1, ih (acc ++ [r]) h.2]
    simp

theorem insertLoop_of_not_all_conform (batch : List (SRec V)) (acc : List (SRec V))
    (h : batch.all (fun r => r.conforms) = false) :
    insertLoop acc batch = none := by
  induction batch generalizing acc with
  | nil => simp at h
  | cons r rs ih =>
    simp only [List.all_cons, Bool.and_eq_false_iff] at h
    rcases h with h1 | h2
    · rw [insertLoop, if_neg (by simp [h1])]
    · by_cases hc : r.conforms
      · rw [insertLoop, if_pos hc, ih (acc ++ [r]) h2]
      · rw [insertLoop, if_neg hc]

theorem merge_to_th_store (now : Nat) (store : List (Row V)) (batch : List (Rec V)) :
    (merge_to_th now store batch).1 = batch.foldl (upsert_row now) store := rfl

theorem merge_to_th_inserted (now : Nat) (store : List (Row V)) (batch : List (Rec V)) :
    (merge_to_th now store batch).2.1 =
      max 0 (((batch.foldl (upsert_row now) store).length : Int) - (store.length : Int)) := rfl

theorem merge_to_th_updated (now : Nat) (store : List (Row V)) (batch : List (Rec V)) :
    (merge_to_th now store batch).2.2 =
      (batch.length : Int) - (merge_to_th now store batch).2.1 := rfl

theorem filter_length_partition {α : Type} (p : α → Bool) (l : List α) :
    (l.filter p).length + (l.filter (fun x => !p x)).length = l.length := by
  induction l with
  | nil => rfl
  | cons x xs ih =>
    cases hp : p x <;> simp [List.filter_cons, hp] <;> omega

theorem occurrencesInPass_nil (k : String) :
    occurrencesInPass ([] : List (Rec V)) k = 0 := rfl

theorem occurrencesInPass_cons (r : Rec V) (rs : List (Rec V)) (k : String) :
    occurrencesInPass (r :: rs) k =
      (if r.key = k then 1 else 0) + occurrencesInPass rs k := by
  by_cases h : r.key = k
  · simp [occurrencesInPass, List.filter_cons, h]
    omega
  · simp [occurrencesInPass, List.filter_cons, h]

theorem getRow_foldl_version (now : Nat) (b : List (Rec V)) (s : List (Row V)) (k : String) :
    (getRow (b.foldl (upsert_row now) s) k).map Row.version =
      match getRow s k with
      | some row => some (row.version + occurrencesInPass b k)
      | none =>
        if occurrencesInPass b k = 0 then none else some (occurrencesInPass b k) := by
  induction b generalizing s with
  | nil =>
    cases hs : getRow s k <;> simp [occurrencesInPass_nil, hs]
  | cons r rs ih =>
    rw [List.foldl_cons, ih (upsert_row now s r), occurrencesInPass_cons]
    by_cases hk : r.key = k
    · subst hk
      rw [getRow_upsert_row_self, if_pos rfl]
      cases hs : getRow s r.key with
      | some row =>
        simp [hs]
        omega
      | none =>
        simp [hs]
    · rw [getRow_upsert_row_other now s r k (fun hc => hk hc.symm), if_neg hk]
      simp

theorem getRow_foldl_first_char (now : Nat) (b : List (Rec V)) (s : List (Row V)) (k : String) :
    (getRow (b.foldl (upsert_row now) s) k).map Row.first_loaded_at =
      match getRow s k with
      | some row => some row.first_loaded_at
      | none =>
        if occurrencesInPass b k = 0 then none else some now := by
  induction b generalizing s with
  | nil =>
    cases hs : getRow s k <;> simp [occurrencesInPass_nil, hs]
  | cons r rs ih =>
    rw [List.foldl_cons, ih (upsert_row now s r), occurrencesInPass_cons]
    by_cases hk : r.key = k
    · subst hk
      rw [getRow_upsert_row_self, if_pos rfl]
      cases hs : getRow s r.key with
      | some row => simp [hs]
      | none => simp [hs]
    · rw [getRow_upsert_row_other now s r k (fun hc => hk hc.symm), if_neg hk]
      simp

theorem getRow_foldl_last_char (now : Nat) (b : List (Rec V)) (s : List (Row V)) (k : String) :
    (getRow (b.foldl (upsert_row now) s) k).map Row.last_updated_at =
      if occurrencesInPass b k = 0 then (getRow s k).map Row.last_updated_at
      else some now := by
  induction b generalizing s with
  | nil => simp [occurrencesInPass_nil]
  | cons r rs ih =>
    rw [List.foldl_cons, ih (upsert_row now s r), occurrencesInPass_cons]
    by_cases hk : r.key = k
    · subst hk
      rw [if_pos rfl]
      by_cases ho : occurrencesInPass rs r.key = 0
      · rw [if_pos ho, getRow_upsert_row_self]
        cases hs : getRow s r.key <;> simp [hs]
      · rw [if_neg ho]
        simp
    · rw [getRow_upsert_row_other now s r k (fun hc => hk hc.symm), if_neg hk]
      simp

/-- C1: for every batch applied via the Versioned Upsert policy — both the
per-record `merge_to_th` and the set-oriented `merge_sql` of
`etl_get_all_countries` — the reported counts satisfy
`inserted + updated = len(batch)`, and the historical store's distinct-key
count increases by exactly the reported `inserted`; stated under the store
invariants enforced by the table itself (UNIQUE natural key, `version ≥ 1`). -/
theorem C1_upsert_total (now : Nat) (store : List (Row V)) (batch : List (Rec V))
    (hnd : (keysOf store).Nodup) (hv : ∀ row ∈ store, 1 ≤ row.version) :
    ((merge_to_th now store batch).2.1 + (merge_to_th now store batch).2.2
        = (batch.length : Int)) ∧
    ((distinctKeyCount (merge_to_th now store batch).1 : Int)
        = (distinctKeyCount store : Int) + (merge_to_th now store batch).2.1) ∧
    (∀ store2 ins upd, merge_sql_set now store batch = some (store2, ins, upd) →
      ins + upd = batch.length ∧
      distinctKeyCount store2 = distinctKeyCount store + ins) := by
  have hlen : store.length ≤ (batch.foldl (upsert_row now) store).length :=
    length_le_length_foldl now batch store
  have hnd2 : (keysOf (batch.foldl (upsert_row now) store)).Nodup :=
    keysOf_foldl_nodup now batch store hnd
  refine ⟨?_, ?_, ?_⟩
  · rw [merge_to_th_updated]
    ring
  · rw [merge_to_th_store, merge_to_th_inserted,
      distinctKeyCount_eq_length _ hnd2, distinctKeyCount_eq_length _ hnd]
    omega
  · intro store2 ins upd hset
    unfold merge_sql_set at hset
    by_cases hb : (batch.map Rec.key).Nodup
    · rw [if_pos hb] at hset
      simp only [Option.some_inj, Prod.mk.injEq] at hset
      obtain ⟨hstore2, hins, hupd⟩ := hset
      constructor
      · rw [← hins, ← hupd]
        exact filter_length_partition (fun r => row_counted_as_insert store r) batch
      · have hfc : batch.filter (fun r => row_counted_as_insert store r) =
            batch.filter (fun r => !(getRow store r.key).isSome) :=
          List.filter_congr (fun r _ => row_counted_as_insert_iff store r hv)
        subst hstore2
        subst hins
        rw [distinctKeyCount_eq_length _ hnd2, distinctKeyCount_eq_length _ hnd,
          length_foldl_nodup now batch store hb, hfc]
    · rw [if_neg hb] at hset
      cases hset

/-- C1 witness: applying the upsert to an empty store with one record
reports `inserted + updated = 1`. -/
theorem C1_upsert_total_witness :
    (merge_to_th 0 ([] : List (Row Nat)) [⟨"ESP", 1⟩]).2.1 +
      (merge_to_th 0 ([] : List (Row Nat)) [⟨"ESP", 1⟩]).2.2 = (1 : Int) := by
  have h := (C1_upsert_total 0 ([] : List (Row Nat)) [⟨"ESP", 1⟩]
    (by decide) (by intro row hrow; cases hrow)).1
  simpa using h

/-- C2 counterexample: a single upsert pass of `merge_to_th` whose batch
lists the key "ESP" twice (which `execute_batch` processes as two
sequential statements) increments the stored version from 1 to 3, not by
exactly 1. -/
theorem C2_version_counterexample :
    (getRow ([⟨"ESP", 0, 1, 0, 0⟩] : List (Row Nat)) "ESP").map Row.version = some 1 ∧
    (getRow (merge_to_th 5 ([⟨"ESP", 0, 1, 0, 0⟩] : List (Row Nat))
        [⟨"ESP", 1⟩, ⟨"ESP", 2⟩]).1 "ESP").map Row.version = some 3 ∧
    (some 3 : Option Nat) ≠ some (1 + 1) := by
  decide

/-- C2 (amended): for every natural key, `version` starts at 1 on first
insert and is incremented by exactly 1 for each occurrence of the key in an
upsert pass — hence by exactly 1 per pass when the batch lists the key
once, as the staging/joiner contract provides; `first_loaded_at` is set
once on insert and never modified afterwards; `last_updated_at` is
refreshed by every pass that includes the key and untouched otherwise;
hence `first_loaded_at ≤ last_updated_at` always, for passes whose
timestamps never decrease. -/
theorem C2_version_audit_amended (now : Nat) (store : List (Row V)) (batch : List (Rec V))
    (k : String)
    (haud : ∀ row ∈ store,
      row.first_loaded_at ≤ row.last_updated_at ∧ row.last_updated_at ≤ now) :
    ((getRow (merge_to_th now store batch).1 k).map Row.version =
      match getRow store k with
      | some row => some (row.version + occurrencesInPass batch k)
      | none =>
        if occurrencesInPass batch k = 0 then none
        else some (occurrencesInPass batch k)) ∧
    ((getRow (merge_to_th now store batch).1 k).map Row.first_loaded_at =
      match getRow store k with
      | some row => some row.first_loaded_at
      | none =>
        if occurrencesInPass batch k = 0 then none else some now) ∧
    ((getRow (merge_to_th now store batch).1 k).map Row.last_updated_at =
      if occurrencesInPass batch k = 0 then (getRow store k).map Row.last_updated_at
      else some now) ∧
    (∀ row ∈ (merge_to_th now store batch).1,
      row.first_loaded_at ≤ row.last_updated_at ∧ row.last_updated_at ≤ now) := by
  refine ⟨?_, ?_, ?_, ?_⟩
  · rw [merge_to_th_store]
    exact getRow_foldl_version now batch store k
  · rw [merge_to_th_store]
    exact getRow_foldl_first_char now batch store k
  · rw [merge_to_th_store]
    exact getRow_foldl_last_char now batch store k
  · rw [merge_to_th_store]
    exact audit_foldl now batch store haud

/-- C2 witness: upserting "ESP" once into an empty store creates version 1
with `first_loaded_at = last_updated_at = 7`, the pass timestamp. -/
theorem C2_version_audit_witness :
    (getRow (merge_to_th 7 ([] : List (Row Nat)) [⟨"ESP", 1⟩]).1 "ESP").map Row.version
        = some 1 ∧
    (getRow (merge_to_th 7 ([] : List (Row Nat)) [⟨"ESP", 1⟩]).1 "ESP").map
        Row.first_loaded_at = some 7 ∧
    (getRow (merge_to_th 7 ([] : List (Row Nat)) [⟨"ESP", 1⟩]).1 "ESP").map
        Row.last_updated_at = some 7 := by
  have h := C2_version_audit_amended 7 ([] : List (Row Nat)) [⟨"ESP", 1⟩] "ESP"
    (by intro row hrow; cases hrow)
  refine ⟨?_, ?_, ?_⟩
  · rw [h.1]
    decide
  · rw [h.2.1]
    decide
  · rw [h.2.2.1]
    decide
/-- C5 counterexample: re-running the upsert with the same one-record batch
does not reproduce the same final store — the version advances from 1 to 2. -/
theorem C5_rerun_counterexample :
    (merge_to_th 3 (merge_to_th 3 ([] : List (Row Nat)) [⟨"ESP", 7⟩]).1 [⟨"ESP", 7⟩]).1
      ≠ (merge_to_th 3 ([] : List (Row Nat)) [⟨"ESP", 7⟩]).1 := by
  decide

/-- C5 (amended): re-running the Versioned Upsert with the same batch is
idempotent up to the audit columns: the second run leaves the store size,
the key sequence, every business value, and every `first_loaded_at`
unchanged (only `version` and `last_updated_at` advance). -/
theorem C5_upsert_rerun_amended (now1 now2 : Nat) (store : List (Row V))
    (batch : List (Rec V)) :
    ((merge_to_th now2 (merge_to_th now1 store batch).1 batch).1.length
        = (merge_to_th now1 store batch).1.length) ∧
    (keysOf (merge_to_th now2 (merge_to_th now1 store batch).1 batch).1
        = keysOf (merge_to_th now1 store batch).1) ∧
    (∀ k, (getRow (merge_to_th now2 (merge_to_th now1 store batch).1 batch).1 k).map Row.val
        = (getRow (merge_to_th now1 store batch).1 k).map Row.val) ∧
    (∀ k, (getRow (merge_to_th now2 (merge_to_th now1 store batch).1 batch).1 k).map
            Row.first_loaded_at
        = (getRow (merge_to_th now1 store batch).1 k).map Row.first_loaded_at) := by
  simp only [merge_to_th_store]
  set S1 := batch.foldl (upsert_row now1) store with hS1
  have hsub : ∀ r ∈ batch, r.key ∈ keysOf S1 := by
    intro r hr
    rw [hS1, mem_keysOf_foldl]
    exact Or.inr (List.mem_map_of_mem Rec.key hr)
  have hkeys : keysOf (batch.foldl (upsert_row now2) S1) = keysOf S1 :=
    keysOf_foldl_of_present now2 batch S1 hsub
  refine ⟨?_, hkeys, ?_, ?_⟩
  · have h1 : (keysOf (batch.foldl (upsert_row now2) S1)).length = (keysOf S1).length := by
      rw [hkeys]
    simpa [keysOf] using h1
  · intro k
    rw [getRow_foldl_val now2 batch S1 k, hS1, getRow_foldl_val now1 batch store k]
    cases hl : lastVal batch k <;> simp [hl]
  · intro k
    by_cases hk : k ∈ keysOf S1
    · exact getRow_first_foldl now2 batch S1 k ((getRow_isSome_iff_mem_keysOf S1 k).mpr hk)
    · have h2 : ¬ (getRow (batch.foldl (upsert_row now2) S1) k).isSome := by
        rw [getRow_isSome_iff_mem_keysOf, hkeys]
        exact hk
      have h1 : ¬ (getRow S1 k).isSome := by
        rw [getRow_isSome_iff_mem_keysOf]
        exact hk
      rw [Option.not_isSome_iff_eq_none.mp h1, Option.not_isSome_iff_eq_none.mp h2]

/-- C8 counterexample: a batch holding the same key twice contributes 2 to
`inserted + updated` (one insert plus one update), not 1. -/
theorem C8_pair_counted_twice :
    ((merge_to_th 0 ([] : List (Row Nat)) [⟨"ESP", 1⟩, ⟨"ESP", 2⟩]).2.1 +
      (merge_to_th 0 ([] : List (Row Nat)) [⟨"ESP", 1⟩, ⟨"ESP", 2⟩]).2.2 = (2 : Int)) ∧
    ((2 : Int) ≠ 1) := by
  decide

/-- C8 (amended): when an upsert batch contains two records with the same
key and different values, `merge_to_th` — which processes the batch as
sequential per-record statements inside one transaction, each resolving
against the current state — stores the last record's values, and the pair
contributes 2 to `inserted + updated` (so `inserted + updated = len(batch)`
still holds); the genuinely set-oriented merge of `etl_get_all_countries`
rejects such a batch instead of applying a tie-break. -/
theorem C8_last_wins_amended (now : Nat) (store : List (Row V)) (k : String) (v1 v2 : V) :
    ((getRow (merge_to_th now store [⟨k, v1⟩, ⟨k, v2⟩]).1 k).map Row.val = some v2) ∧
    ((merge_to_th now store [⟨k, v1⟩, ⟨k, v2⟩]).2.1 +
      (merge_to_th now store [⟨k, v1⟩, ⟨k, v2⟩]).2.2 = (2 : Int)) ∧
    merge_sql_set now store [⟨k, v1⟩, ⟨k, v2⟩] = none := by
  refine ⟨?_, ?_, ?_⟩
  · rw [merge_to_th_store, getRow_foldl_val]
    have hl : lastVal [⟨k, v1⟩, ⟨k, v2⟩] k = some v2 := by
      simp [lastVal, List.find?]
    rw [hl]
    rfl
  · rw [merge_to_th_updated]
    ring_nf
    simp
  · unfold merge_sql_set
    rw [if_neg]
    simp

/-- C3: in the weather loader the reported counts satisfy
`inserted + duplicates = len(batch)` and `total = total_before + inserted`;
but the air-quality `load_to_th` computes its duplicate count with a
formula that is identically zero (line 343 of
`training_get_air_quality_aqicn.py`), so presenting one already-stored
measurement yields `inserted = 0` and `duplicates = 0`, violating
`inserted + duplicates = len(batch) = 1` (its `total` identity still
holds). -/
theorem C3_append_dedup_counts :
    (∀ (W : Type) (store sa : List (Meas W)),
      ((weather_load_th store sa).2.1 : Int) + (weather_load_th store sa).2.2.1
          = (sa.length : Int) ∧
      (weather_load_th store sa).2.2.2 = store.length + (weather_load_th store sa).2.1) ∧
    (load_to_th ([⟨0, "madrid", 0⟩] : List (Meas Nat)) [⟨0, "madrid", 0⟩]
        = ([⟨0, "madrid", 0⟩], 0, 0, 1)) := by
  constructor
  · intro W store sa
    have hge := length_le_insertAppendOnly store sa
    constructor
    · simp only [weather_load_th]
      omega
    · simp only [weather_load_th]
      omega
  · decide

/-- C4: the weather append-only loader is idempotent — re-applying the same
batch reports `inserted = 0` and `duplicates = len(batch)`, leaves the
store unchanged, and the first application only ever appends to the store
(no stored measurement is modified); but the air-quality `load_to_th`
reports `duplicates = 0` instead of `len(batch)` on the second application,
because its duplicate count is identically zero (line 343). -/
theorem C4_append_idempotent :
    (∀ (W : Type) (store sa : List (Meas W)),
      weather_load_th (weather_load_th store sa).1 sa
          = ((weather_load_th store sa).1, 0, (sa.length : Int),
             (weather_load_th store sa).1.length) ∧
      ∃ tail, (weather_load_th store sa).1 = store ++ tail) ∧
    (load_to_th (load_to_th ([] : List (Meas Nat)) [⟨0, "madrid", 0⟩]).1
        [⟨0, "madrid", 0⟩] = ([⟨0, "madrid", 0⟩], 0, 0, 1)) := by
  constructor
  · intro W store sa
    constructor
    · simp only [weather_load_th, insertAppendOnly_idem]
      simp
    · simpa only [weather_load_th] using insertAppendOnly_exists_tail sa store
  · decide

/-- C6: the Multi-Source Joiner `read_combined_sa` performs a strict inner
join — a natural key appears in the output exactly when it is present in
all three staging areas (keys missing anywhere are silently dropped) — and
the output is ordered by the join key ascending. -/
theorem C6_joiner_inner_join {B G C : Type}
    (bs : List (String × B)) (gs : List (String × G)) (cs : List (String × C))
    (k : String) :
    (k ∈ (read_combined_sa bs gs cs).map Prod.fst ↔
      (k ∈ bs.map Prod.fst ∧ k ∈ gs.map Prod.fst ∧ k ∈ cs.map Prod.fst)) ∧
    List.Sorted (· ≤ ·) ((read_combined_sa bs gs cs).map Prod.fst) := by
  constructor
  · unfold read_combined_sa
    simp only [List.mem_map, List.mem_mergeSort, List.mem_flatMap, List.mem_filter,
      beq_iff_eq]
    constructor
    · rintro ⟨row, ⟨b, hb, g, ⟨hg, hgk⟩, c, ⟨hc, hck⟩, heq⟩, hfst⟩
      subst heq
      simp only at hfst
      subst hfst
      exact ⟨⟨b, hb, rfl⟩, ⟨g, hg, hgk⟩, ⟨c, hc, hck⟩⟩
    · rintro ⟨⟨b, hb, rfl⟩, ⟨g, hg, hgk⟩, ⟨c, hc, hck⟩⟩
      exact ⟨(b.1, b.2, g.2, c.2), ⟨b, hb, g, ⟨hg, hgk⟩, c, ⟨hc, hck⟩, rfl⟩, rfl⟩
  · unfold read_combined_sa
    rw [List.Sorted, List.pairwise_map]
    have hs := @List.sorted_mergeSort (String × B × G × C)
      (fun x y => decide (x.1 ≤ y.1))
      (fun a b c hab hbc => by
        simp only [decide_eq_true_eq] at hab hbc ⊢
        exact le_trans hab hbc)
      (fun a b => by
        simpa using le_total a.1 b.1)
      (bs.flatMap (fun b =>
        ((gs.filter (fun g => g.1 == b.1)).flatMap (fun g =>
          (cs.filter (fun c => c.1 == b.1)).map (fun c =>
            (b.1, b.2, g.2, c.2))))))
    exact hs.imp (fun h => by simpa using h)

/-- C7: the Staging Loader atomically replaces the full prior contents of
the staging area with the new batch and returns the number of records
written; if any record fails to conform, the transaction rolls back and the
area keeps its prior contents, with no partial load visible. -/
theorem C7_staging_loader_atomic (prior batch : List (SRec V)) :
    (batch.all (fun r => r.conforms) = true →
      load_to_sa prior batch = (batch, some batch.length)) ∧
    (batch.all (fun r => r.conforms) = false →
      load_to_sa prior batch = (prior, none)) := by
  constructor
  · intro h
    unfold load_to_sa
    rw [insertLoop_of_all_conform batch [] h]
    simp
  · intro h
    unfold load_to_sa
    rw [insertLoop_of_not_all_conform batch [] h]

/-- C7 witness: a conforming two-record batch fully replaces the prior
contents and reports 2 written; a non-conforming batch leaves the prior
contents in place. -/
theorem C7_staging_loader_witness :
    load_to_sa ([⟨0, true⟩] : List (SRec Nat)) [⟨1, true⟩, ⟨2, true⟩]
        = ([⟨1, true⟩, ⟨2, true⟩], some 2) ∧
    load_to_sa ([⟨0, true⟩] : List (SRec Nat)) [⟨1, false⟩] = ([⟨0, true⟩], none) :=
  ⟨(C7_staging_loader_atomic [⟨0, true⟩] [⟨1, true⟩, ⟨2, true⟩]).1 (by decide),
   (C7_staging_loader_atomic [⟨0, true⟩] [⟨1, false⟩]).2 (by decide)⟩

/-- C10: `merge_to_th` mutates its input batch in place — after the call
the caller's list holds the records with every JSONB field (`languages`,
`currencies`, `timezones`, `borders`) whose value was neither a string nor
`None` replaced by its `json.dumps` serialization (`None` stays `None`, a
string is left as is), while every other field of every record is left
unchanged. -/
theorem C10_jsonb_mutation (countries : List PyDict) (country : PyDict) (field : String) :
    (merge_to_th_batch_after countries = countries.map serializeCountry) ∧
    (field ∈ jsonb_fields →
      dictGet (serializeCountry country) field
        = serializedJsonbValue (dictGet country field)) ∧
    (field ∉ jsonb_fields →
      dictGet (serializeCountry country) field = dictGet country field) := by
  refine ⟨rfl, ?_, ?_⟩
  · intro hf
    simp only [jsonb_fields, List.mem_cons, List.not_mem_nil, or_false] at hf
    unfold serializeCountry jsonb_fields
    simp only [List.foldl_cons, List.foldl_nil]
    rcases hf with rfl | rfl | rfl | rfl
    · rw [dictGet_serializeJsonbField_other _ _ _ (by decide),
        dictGet_serializeJsonbField_other _ _ _ (by decide),
        dictGet_serializeJsonbField_other _ _ _ (by decide),
        dictGet_serializeJsonbField_self]
    · rw [dictGet_serializeJsonbField_other _ _ _ (by decide),
        dictGet_serializeJsonbField_other _ _ _ (by decide),
        dictGet_serializeJsonbField_self,
        dictGet_serializeJsonbField_other _ _ _ (by decide)]
    · rw [dictGet_serializeJsonbField_other _ _ _ (by decide),
        dictGet_serializeJsonbField_self,
        dictGet_serializeJsonbField_other _ _ _ (by decide),
        dictGet_serializeJsonbField_other _ _ _ (by decide)]
    · rw [dictGet_serializeJsonbField_self,
        dictGet_serializeJsonbField_other _ _ _ (by decide),
        dictGet_serializeJsonbField_other _ _ _ (by decide),
        dictGet_serializeJsonbField_other _ _ _ (by decide)]
  · intro hf
    simp only [jsonb_fields, List.mem_cons, List.not_mem_nil, or_false, not_or] at hf
    obtain ⟨h1, h2, h3, h4⟩ := hf
    unfold serializeCountry jsonb_fields
    simp only [List.foldl_cons, List.foldl_nil]
    rw [dictGet_serializeJsonbField_other _ _ _ (fun hc => h4 hc.symm),
      dictGet_serializeJsonbField_other _ _ _ (fun hc => h3 hc.symm),
      dictGet_serializeJsonbField_other _ _ _ (fun hc => h2 hc.symm),
      dictGet_serializeJsonbField_other _ _ _ (fun hc => h1 hc.symm)]

/-- C10 witness: a record whose `languages` value is a Python dict is
observed by the caller, after the call, holding its JSON-string
serialization instead. -/
theorem C10_jsonb_mutation_witness :
    "languages" ∈ jsonb_fields ∧
    dictGet (serializeCountry
        [("languages", PyVal.pobj [("spa", PyVal.pstr "Spanish")])]) "languages"
      = serializedJsonbValue
          (dictGet [("languages", PyVal.pobj [("spa", PyVal.pstr "Spanish")])] "languages") :=
  ⟨by simp [jsonb_fields],
   (C10_jsonb_mutation [] [("languages", PyVal.pobj [("spa", PyVal.pstr "Spanish")])]
     "languages").2.1 (by simp [jsonb_fields])⟩

end ETL
